import Mathlib

/-!
Shallow embedding of the crust column-extraction tool (src/main.rs) and
proofs about its table model: the parser `parse_tsv`, the column
projector `Table.get_cols` / `Table.get_col`, the renderer (the `Display`
implementation), and the 1-based to 0-based field conversion in `main`.

Strings are modelled as lists of characters (`Str := List Char`), and the
panics of the Rust code (out-of-bounds indexing, the `expect` on an empty
line iterator) are modelled as `Except.error` values carrying the data the
panic message reports.
-/

/-- Strings of the Rust program, modelled as lists of characters. -/
abbrev Str := List Char

deriving instance DecidableEq for Except

/-- Failure values of the program.  `indexOutOfRange i len` models the Rust
index-out-of-bounds panic (its message reports the index and the length);
`emptyInput` models the panic of `lines.peek().expect("Lines should not be
empty")` in `parse_tsv`. -/
inductive CrustError where
  | emptyInput : CrustError
  | indexOutOfRange (index : Nat) (len : Nat) : CrustError
  deriving DecidableEq, Repr

/-- The `Table` struct of src/main.rs: header fields, data rows, and the
delimiter string. -/
structure Table where
  columns : List Str
  rows : List (List Str)
  delimiter : Str
  deriving DecidableEq, Repr

/-- The `Default` impl for `Table`: empty columns and rows, tab delimiter. -/
def Table.default : Table :=
  { columns := [], rows := [], delimiter := ['\t'] }

/-- Fuel-driven worker for `splitOn`.  It scans `s` left to right; whenever
the (nonempty) separator is a prefix of the remaining input it emits the
chunk accumulated in `cur` and skips the separator, exactly like Rust's
`str::split` with a literal string pattern.  The fuel argument only makes
the recursion structural; `splitOn` supplies `s.length`, which is enough
because every step consumes at least one character. -/
def splitOnFuel (sep : Str) : Nat → Str → Str → List Str
  | _, [], cur => [cur.reverse]
  | 0, _ :: _, _ => []
  | fuel + 1, c :: rest, cur =>
    if sep.isPrefixOf (c :: rest) ∧ sep ≠ [] then
      cur.reverse :: splitOnFuel sep fuel (List.drop (sep.length - 1) rest) []
    else
      splitOnFuel sep fuel rest (c :: cur)

/-- Rust's `str::split` on a literal (nonempty) separator string.  For an
empty separator it returns `[s]`; the spec leaves that case unspecified and
no claim depends on it. -/
def splitOn (sep s : Str) : List Str :=
  splitOnFuel sep s.length s []

/-- Worker of `splitOn` at the canonical fuel, used to state step
equations with a general accumulator. -/
def splitOnGo (sep s cur : Str) : List Str :=
  splitOnFuel sep s.length s cur

/-- Strip one trailing carriage return, as Rust's `str::lines` does for
lines terminated by a CRLF sequence. -/
def stripCR (l : Str) : Str :=
  if l.getLast? = some '\r' then l.dropLast else l

/-- Post-processing of the chunks produced by splitting on a newline:
every chunk except the last was newline-terminated, so it loses one
trailing carriage return; a final empty chunk (from a trailing newline,
or from empty input) is dropped; a final nonempty chunk is kept as-is. -/
def rustLinesAux : List Str → List Str
  | [] => []
  | [l] => if l = [] then [] else [l]
  | l :: l' :: rest => stripCR l :: rustLinesAux (l' :: rest)

/-- Rust's `str::lines`: split on newline characters, treat CRLF as a line
terminator, and produce no final empty line for a trailing newline. -/
def rustLines (s : Str) : List Str :=
  rustLinesAux (splitOn ['\n'] s)

/-- The `parse_tsv` function of src/main.rs, restricted to its pure core:
file reading is a collaborator concern, so the embedding consumes the raw
text directly.  The first line (the `expect` panics when there is none,
modelled as `emptyInput`) is split on the delimiter to form `columns`;
every later line is split the same way to form one row, in input order;
the table's delimiter is the delimiter argument. -/
def parse_tsv (raw : Str) (delimiter : Str) : Except CrustError Table :=
  match rustLines raw with
  | [] => .error .emptyInput
  | header :: rest =>
    .ok { columns := splitOn delimiter header
          rows := rest.map (splitOn delimiter)
          delimiter := delimiter }

/-- Join a list of fields with a delimiter, no trailing delimiter: the
peekable print loop of the `Display` impl. -/
def renderLine (delimiter : Str) (fields : List Str) : Str :=
  List.intercalate delimiter fields

/-- The header line of a table as the `Display` impl emits it. -/
def Table.headerLine (t : Table) : Str :=
  renderLine t.delimiter t.columns

/-- The data lines of a table as the `Display` impl emits them. -/
def Table.rowLines (t : Table) : List Str :=
  t.rows.map (renderLine t.delimiter)

/-- The full text emitted by the `Display` impl of `Table` (the `print!`
calls and the formatter writes, in execution order): the joined header,
one newline, then the joined rows separated by newlines with no newline
after the last row. -/
def Table.render (t : Table) : Str :=
  t.headerLine ++ ['\n'] ++ List.intercalate ['\n'] t.rowLines

/-- Select the fields of one list at the given indices, in order, failing
at the first index that is out of range — the inner loop of `get_cols`,
where `row[*index as usize]` panics on the first out-of-bounds index. -/
def selectFields (fields : List Str) : List Nat → Except CrustError (List Str)
  | [] => .ok []
  | i :: rest =>
    if h : i < fields.length then
      match selectFields fields rest with
      | .ok out => .ok (fields[i] :: out)
      | .error e => .error e
    else
      .error (.indexOutOfRange i fields.length)

/-- Apply `selectFields` to every row in order, failing at the first row
whose selection fails — the row loop of `get_cols`. -/
def selectRows (indices : List Nat) : List (List Str) → Except CrustError (List (List Str))
  | [] => .ok []
  | r :: rest =>
    match selectFields r indices with
    | .ok row =>
      match selectRows indices rest with
      | .ok out => .ok (row :: out)
      | .error e => .error e
    | .error e => .error e

/-- The `get_cols` method of `Table`: build the projected header first
(so an out-of-range index fails before any row is touched), then build
every projected row; the result keeps the input table's delimiter. -/
def Table.get_cols (t : Table) (indices : List Nat) : Except CrustError Table :=
  match selectFields t.columns indices with
  | .error e => .error e
  | .ok cols =>
    match selectRows indices t.rows with
    | .error e => .error e
    | .ok rows => .ok { columns := cols, rows := rows, delimiter := t.delimiter }

/-- The row loop of `get_col`: one single-field row per input row. -/
def selectSingle (index : Nat) : List (List Str) → Except CrustError (List (List Str))
  | [] => .ok []
  | r :: rest =>
    if h : index < r.length then
      match selectSingle index rest with
      | .ok out => .ok ([r[index]] :: out)
      | .error e => .error e
    else
      .error (.indexOutOfRange index r.length)

/-- The `get_col` method of `Table`: starts from `Table::default()` and
never assigns the delimiter, so the result's delimiter is the default tab
regardless of the input table's delimiter. -/
def Table.get_col (t : Table) (index : Nat) : Except CrustError Table :=
  if h : index < t.columns.length then
    match selectSingle index t.rows with
    | .ok rows => .ok { columns := [t.columns[index]], rows := rows, delimiter := ['\t'] }
    | .error e => .error e
  else
    .error (.indexOutOfRange index t.columns.length)

/-- The wrapped value of the unsigned 32-bit subtraction `y - 1` as `main`
performs it on each user-supplied field number (release-profile semantics:
two's-complement wraparound modulo 2 ^ 32; a debug build panics at the
same inputs — either way no lower bound is checked and no typed error is
produced). -/
def u32SubOne (y : Nat) : Nat :=
  (y + (2 ^ 32 - 1)) % 2 ^ 32

/-- The field conversion in `main`: `fields = x.iter().map(|y| y - 1)`,
turning 1-based user field numbers into 0-based indices with no lower
bound check. -/
def convertFields (fields : List Nat) : List Nat :=
  fields.map u32SubOne

/-! Lemmas about `splitOnFuel` and `splitOn`. -/

/-- The result of `splitOnFuel` does not depend on the fuel once the fuel
covers the length of the input. -/
theorem splitOnFuel_congr (sep : Str) :
    ∀ (f1 f2 : Nat) (s cur : Str), s.length ≤ f1 → s.length ≤ f2 →
      splitOnFuel sep f1 s cur = splitOnFuel sep f2 s cur := by
  intro f1
  induction f1 with
  | zero =>
    intro f2 s cur h1 _
    cases s with
    | nil => cases f2 <;> simp [splitOnFuel]
    | cons c rest => simp at h1
  | succ f1 ih =>
    intro f2 s cur h1 h2
    cases s with
    | nil => cases f2 <;> simp [splitOnFuel]
    | cons c rest =>
      cases f2 with
      | zero => simp at h2
      | succ f2 =>
        simp only [splitOnFuel]
        by_cases hc : sep.isPrefixOf (c :: rest) ∧ sep ≠ []
        · simp only [if_pos hc]
          congr 1
          apply ih
          · rw [List.length_drop]
            simp only [List.length_cons] at h1
            omega
          · rw [List.length_drop]
            simp only [List.length_cons] at h2
            omega
        · simp only [if_neg hc]
          apply ih
          · simp only [List.length_cons] at h1
            omega
          · simp only [List.length_cons] at h2
            omega

theorem splitOn_eq_go (sep s : Str) : splitOn sep s = splitOnGo sep s [] := rfl

theorem splitOnGo_nil (sep cur : Str) : splitOnGo sep [] cur = [cur.reverse] := rfl

/-- Step equation for `splitOnGo`, mirroring the scanner of Rust's
`str::split`. -/
theorem splitOnGo_cons (sep : Str) (c : Char) (rest cur : Str) :
    splitOnGo sep (c :: rest) cur =
      if sep.isPrefixOf (c :: rest) ∧ sep ≠ [] then
        cur.reverse :: splitOnGo sep (List.drop (sep.length - 1) rest) []
      else
        splitOnGo sep rest (c :: cur) := by
  show splitOnFuel sep (rest.length + 1) (c :: rest) cur = _
  simp only [splitOnFuel]
  by_cases hc : sep.isPrefixOf (c :: rest) ∧ sep ≠ []
  · simp only [if_pos hc]
    congr 1
    apply splitOnFuel_congr
    · rw [List.length_drop]
      omega
    · exact le_refl _
  · simp only [if_neg hc]
    rfl

/-- Scanning through a block that does not contain the single-character
separator only moves the block into the accumulator. -/
theorem splitOnGo_append_of_not_mem (c : Char) :
    ∀ (f s cur : Str), c ∉ f →
      splitOnGo [c] (f ++ s) cur = splitOnGo [c] s (f.reverse ++ cur) := by
  intro f
  induction f with
  | nil =>
    intro s cur _
    simp
  | cons a f ih =>
    intro s cur h
    have hca : ¬c = a := by
      intro hc
      exact h (by simp [hc])
    have hcf : c ∉ f := by
      intro hc
      exact h (by simp [hc])
    rw [List.cons_append, splitOnGo_cons, if_neg (by simp [List.isPrefixOf, hca]),
      ih s (a :: cur) hcf]
    simp [List.append_assoc]

/-- Hitting the single-character separator emits the accumulated chunk. -/
theorem splitOnGo_sep_cons (c : Char) (s cur : Str) :
    splitOnGo [c] (c :: s) cur = cur.reverse :: splitOnGo [c] s [] := by
  rw [splitOnGo_cons, if_pos]
  · simp
  · exact ⟨by simp [List.isPrefixOf], by simp⟩

/-- Splitting `f ++ c :: s` on the character `c`, with `c` not occurring
in `f`, yields `f` followed by the splitting of `s`. -/
theorem splitOn_append_sep (c : Char) (f s : Str) (h : c ∉ f) :
    splitOn [c] (f ++ c :: s) = f :: splitOn [c] s := by
  rw [splitOn_eq_go, splitOn_eq_go, splitOnGo_append_of_not_mem c f (c :: s) [] h,
    splitOnGo_sep_cons]
  simp

/-- Splitting a string that does not contain the separator character
yields that string as the single chunk. -/
theorem splitOn_of_not_mem (c : Char) (f : Str) (h : c ∉ f) :
    splitOn [c] f = [f] := by
  have hgo := splitOnGo_append_of_not_mem c f [] [] h
  rw [List.append_nil] at hgo
  rw [splitOn_eq_go, hgo, splitOnGo_nil]
  simp

theorem intercalate_nil_str (s : Str) : List.intercalate s ([] : List Str) = [] := by
  simp [List.intercalate]

theorem intercalate_singleton_str (s x : Str) : List.intercalate s [x] = x := by
  simp [List.intercalate]

theorem intercalate_cons₂_str (s x y : Str) (t : List Str) :
    List.intercalate s (x :: y :: t) = x ++ s ++ List.intercalate s (y :: t) := by
  simp [List.intercalate, List.intersperse]

/-- Splitting on a character is a left inverse of joining with it, for a
nonempty list of chunks none of which contains the character. -/
theorem splitOn_intercalate (c : Char) :
    ∀ fs : List Str, fs ≠ [] → (∀ f ∈ fs, c ∉ f) →
      splitOn [c] (List.intercalate [c] fs) = fs := by
  intro fs
  induction fs with
  | nil =>
    intro h _
    exact absurd rfl h
  | cons f fs ih =>
    intro _ hmem
    cases fs with
    | nil =>
      rw [intercalate_singleton_str]
      exact splitOn_of_not_mem c f (hmem f (by simp))
    | cons g gs =>
      rw [intercalate_cons₂_str, List.append_assoc, List.singleton_append,
        splitOn_append_sep c f _ (hmem f (by simp)),
        ih (by simp) (fun x hx => hmem x (by simp [hx]))]

/-- A character different from the separator and absent from every chunk
is absent from the join. -/
theorem not_mem_intercalate (a c : Char) (hne : a ≠ c) :
    ∀ fs : List Str, (∀ f ∈ fs, a ∉ f) → a ∉ List.intercalate [c] fs := by
  intro fs
  induction fs with
  | nil =>
    intro _
    simp [intercalate_nil_str]
  | cons f fs ih =>
    intro hmem
    cases fs with
    | nil =>
      rw [intercalate_singleton_str]
      exact hmem f (by simp)
    | cons g gs =>
      rw [intercalate_cons₂_str]
      simp only [List.mem_append, List.mem_singleton]
      push_neg
      exact ⟨⟨hmem f (by simp), by simpa using hne⟩,
        ih (fun x hx => hmem x (by simp [hx]))⟩

/-- The join of a nonempty list of chunks other than `[[]]` with a
nonempty separator is nonempty. -/
theorem intercalate_ne_nil (s : Str) (hs : s ≠ []) :
    ∀ r : List Str, r ≠ [] → r ≠ [[]] → List.intercalate s r ≠ [] := by
  intro r h1 h2
  cases r with
  | nil => exact absurd rfl h1
  | cons x t =>
    cases t with
    | nil =>
      rw [intercalate_singleton_str]
      intro hx
      exact h2 (by simp [hx])
    | cons y u =>
      rw [intercalate_cons₂_str]
      simp [List.append_eq_nil, hs]

/-! Lemmas about `selectFields` and `selectRows`. -/

/-- A successful field selection produces one field per requested index. -/
theorem selectFields_ok_length :
    ∀ (idxs : List Nat) (fields out : List Str),
      selectFields fields idxs = .ok out → out.length = idxs.length := by
  intro idxs
  induction idxs with
  | nil =>
    intro fields out h
    simp only [selectFields] at h
    injection h with h'
    simp [← h']
  | cons i rest ih =>
    intro fields out h
    simp only [selectFields] at h
    split at h
    · split at h
      · injection h with h'
        rename_i out' heq
        simp [← h', ih fields out' heq]
      · exact absurd h (by simp)
    · exact absurd h (by simp)

/-- A successful row selection produces rows of one field per requested
index. -/
theorem selectRows_ok_length :
    ∀ (rows : List (List Str)) (idxs : List Nat) (out : List (List Str)),
      selectRows idxs rows = .ok out → ∀ r ∈ out, r.length = idxs.length := by
  intro rows
  induction rows with
  | nil =>
    intro idxs out h
    simp only [selectRows] at h
    injection h with h'
    simp [← h']
  | cons r0 rest ih =>
    intro idxs out h
    simp only [selectRows] at h
    split at h
    · rename_i row heq1
      split at h
      · rename_i out' heq2
        injection h with h'
        intro r hr
        rw [← h'] at hr
        rcases List.mem_cons.mp hr with rfl | hmem
        · exact selectFields_ok_length idxs r0 r heq1
        · exact ih idxs out' heq2 r hmem
      · exact absurd h (by simp)
    · exact absurd h (by simp)

/-- When some requested index is at least the number of fields, selection
fails at the first such index, reporting it together with the length. -/
theorem selectFields_error_of_oob :
    ∀ (idxs : List Nat) (fields : List Str),
      (∃ i, i ∈ idxs ∧ fields.length ≤ i) →
      ∃ j, j ∈ idxs ∧ fields.length ≤ j ∧
        selectFields fields idxs = .error (.indexOutOfRange j fields.length) := by
  intro idxs
  induction idxs with
  | nil =>
    intro fields h
    obtain ⟨i, hi, _⟩ := h
    simp at hi
  | cons i rest ih =>
    intro fields h
    obtain ⟨k, hk, hklen⟩ := h
    by_cases hi : i < fields.length
    · have hkrest : k ∈ rest := by
        rcases List.mem_cons.mp hk with rfl | hmem
        · omega
        · exact hmem
      obtain ⟨j, hj, hjlen, heq⟩ := ih fields ⟨k, hkrest, hklen⟩
      refine ⟨j, by simp [hj], hjlen, ?_⟩
      simp only [selectFields]
      rw [dif_pos hi, heq]
    · refine ⟨i, by simp, by omega, ?_⟩
      simp only [selectFields]
      rw [dif_neg hi]

/-! Theorems settling the claims about projection and parsing. -/

/-- Claim C1: for every table and every index list containing some index
at or beyond the number of columns, `get_cols` fails with an
index-out-of-range error identifying the offending index (the first such
index, checked against the header width) and returns no table at all. -/
theorem getCols_out_of_range (t : Table) (indices : List Nat)
    (h : ∃ i, i ∈ indices ∧ t.columns.length ≤ i) :
    ∃ j, j ∈ indices ∧ t.columns.length ≤ j ∧
      t.get_cols indices = .error (.indexOutOfRange j t.columns.length) := by
  obtain ⟨j, hj, hjlen, heq⟩ := selectFields_error_of_oob indices t.columns h
  refine ⟨j, hj, hjlen, ?_⟩
  unfold Table.get_cols
  rw [heq]

/-- Witness for C1: a one-column table with the out-of-range index 1. -/
theorem getCols_out_of_range_case :
    ∃ j, j ∈ [1] ∧ (Table.mk [['a']] [] ['\t']).columns.length ≤ j ∧
      (Table.mk [['a']] [] ['\t']).get_cols [1] =
        .error (.indexOutOfRange j (Table.mk [['a']] [] ['\t']).columns.length) :=
  getCols_out_of_range (Table.mk [['a']] [] ['\t']) [1] ⟨1, by decide⟩

/-- Claim C2: parsing raw text with zero lines fails with the
empty-input error before any table is produced. -/
theorem parse_tsv_empty_input (raw d : Str) (h : rustLines raw = []) :
    parse_tsv raw d = .error .emptyInput := by
  simp [parse_tsv, h]

/-- Witness for C2: the empty raw text has zero lines and fails. -/
theorem parse_tsv_empty_input_case :
    parse_tsv [] [','] = .error .emptyInput :=
  parse_tsv_empty_input [] [','] (by decide)

/-- Claim C4: whenever `get_cols` succeeds, every row of the output table
has exactly as many fields as the output table's column list. -/
theorem getCols_output_wellformed (t : Table) (indices : List Nat) (res : Table)
    (h : t.get_cols indices = .ok res) :
    ∀ r ∈ res.rows, r.length = res.columns.length := by
  unfold Table.get_cols at h
  split at h
  · exact absurd h (by simp)
  · rename_i cols heq1
    split at h
    · exact absurd h (by simp)
    · rename_i rows heq2
      injection h with h'
      rw [← h']
      intro r hr
      rw [selectFields_ok_length indices t.columns cols heq1]
      exact selectRows_ok_length t.rows indices rows heq2 r hr

/-- Witness for C4: the one row of a duplicate-and-reorder projection of
a 3-column table has as many fields as the projected header. -/
theorem getCols_output_wellformed_case :
    [['c'], ['a'], ['a']].length =
      (Table.mk [['f', '2'], ['f', '0'], ['f', '0']]
        [[['c'], ['a'], ['a']]] ['\t']).columns.length :=
  getCols_output_wellformed
    (Table.mk [['f', '0'], ['f', '1'], ['f', '2']] [[['a'], ['b'], ['c']]] ['\t'])
    [2, 0, 0]
    (Table.mk [['f', '2'], ['f', '0'], ['f', '0']] [[['c'], ['a'], ['a']]] ['\t'])
    (by decide) [['c'], ['a'], ['a']] (by decide)

/-- Claim C7: whenever `get_cols` succeeds, the output table's delimiter
equals the input table's delimiter. -/
theorem getCols_preserves_delimiter (t : Table) (indices : List Nat) (res : Table)
    (h : t.get_cols indices = .ok res) : res.delimiter = t.delimiter := by
  unfold Table.get_cols at h
  split at h
  · exact absurd h (by simp)
  · split at h
    · exact absurd h (by simp)
    · injection h with h'
      rw [← h']

/-- Witness for C7: projecting a comma-delimited table keeps the comma. -/
theorem getCols_preserves_delimiter_case :
    (Table.mk [['a'], ['b']] [[['1'], ['2']]] [',']).get_cols [1, 0] =
        .ok (Table.mk [['b'], ['a']] [[['2'], ['1']]] [',']) ∧
      (Table.mk [['b'], ['a']] [[['2'], ['1']]] [',']).delimiter =
        (Table.mk [['a'], ['b']] [[['1'], ['2']]] [',']).delimiter :=
  ⟨by decide,
    getCols_preserves_delimiter (Table.mk [['a'], ['b']] [[['1'], ['2']]] [','])
      [1, 0] (Table.mk [['b'], ['a']] [[['2'], ['1']]] [',']) (by decide)⟩

/-- Helper: on raw text with at least one line, the parser returns the
split header, the splits of the remaining lines in order, and the
delimiter, with no further checks. -/
theorem parse_tsv_of_rustLines_cons (raw d header : Str) (rest : List Str)
    (h : rustLines raw = header :: rest) :
    parse_tsv raw d = .ok (Table.mk (splitOn d header) (rest.map (splitOn d)) d) := by
  simp [parse_tsv, h]

/-- Claim C8: for raw input with at least one line, every line after the
first is split on the delimiter and becomes one row, in input order, with
no field-count check of any kind: parsing succeeds whatever the splits
look like. -/
theorem parse_tsv_splits_tail_lines (raw d header : Str) (rest : List Str)
    (h : rustLines raw = header :: rest) :
    parse_tsv raw d = .ok (Table.mk (splitOn d header) (rest.map (splitOn d)) d) :=
  parse_tsv_of_rustLines_cons raw d header rest h

/-- Witness for C8: a ragged input whose second line has one field and
whose third line has three fields is accepted as-is. -/
theorem parse_tsv_splits_tail_lines_case :
    parse_tsv ['a', ',', 'b', '\n', 'x', '\n', '1', ',', '2', ',', '3'] [','] =
      .ok (Table.mk (splitOn [','] ['a', ',', 'b'])
        ([['x'], ['1', ',', '2', ',', '3']].map (splitOn [','])) [',']) :=
  parse_tsv_splits_tail_lines ['a', ',', 'b', '\n', 'x', '\n', '1', ',', '2', ',', '3']
    [','] ['a', ',', 'b'] [['x'], ['1', ',', '2', ',', '3']] (by decide)

/-! Projection identity (claim C3). -/

/-- Shifting every index up by one and adding a field in front leaves a
successful selection unchanged. -/
theorem selectFields_map_succ :
    ∀ (idxs : List Nat) (a : Str) (fs out : List Str),
      selectFields fs idxs = .ok out →
      selectFields (a :: fs) (idxs.map Nat.succ) = .ok out := by
  intro idxs
  induction idxs with
  | nil =>
    intro a fs out h
    simpa [selectFields] using h
  | cons i rest ih =>
    intro a fs out h
    simp only [selectFields] at h
    split at h
    · rename_i hi
      split at h
      · rename_i out' heq
        injection h with h'
        simp only [List.map_cons, selectFields]
        rw [dif_pos (show Nat.succ i < (a :: fs).length by simp [List.length_cons]; omega),
          ih a fs out' heq, ← h']
        rfl
      · exact absurd h (by simp)
    · exact absurd h (by simp)

/-- Selecting all fields of a list in order reproduces the list. -/
theorem selectFields_range_self :
    ∀ fs : List Str, selectFields fs (List.range fs.length) = .ok fs := by
  intro fs
  induction fs with
  | nil => rfl
  | cons a fs ih =>
    rw [show (a :: fs).length = fs.length + 1 from rfl, List.range_succ_eq_map]
    simp only [selectFields]
    rw [dif_pos (show 0 < (a :: fs).length by simp),
      selectFields_map_succ (List.range fs.length) a fs fs ih]
    rfl

/-- Selecting `[0, ..., n-1]` from rows that all have exactly `n` fields
reproduces the rows. -/
theorem selectRows_range :
    ∀ (rows : List (List Str)) (n : Nat), (∀ r ∈ rows, r.length = n) →
      selectRows (List.range n) rows = .ok rows := by
  intro rows
  induction rows with
  | nil =>
    intro n _
    rfl
  | cons r rest ih =>
    intro n hw
    simp only [selectRows]
    have hr : selectFields r (List.range n) = .ok r := by
      rw [← hw r (by simp)]
      exact selectFields_range_self r
    rw [hr, ih n (fun x hx => hw x (by simp [hx]))]

/-- Counterexample to claim C3 as stated: on a ragged table whose only
row is longer than the header, projecting with the full in-order index
list truncates the row, so the result is not the input table. -/
theorem getCols_full_range_not_id_on_ragged :
    (Table.mk [['a']] [[['x'], ['y']]] ['\t']).get_cols
        (List.range (Table.mk [['a']] [[['x'], ['y']]] ['\t']).columns.length) ≠
      .ok (Table.mk [['a']] [[['x'], ['y']]] ['\t']) := by
  decide

/-- Claim C3 (amended): for every table whose rows all have exactly as
many fields as the header, projecting with the full in-order index list
`[0, ..., columns.length - 1]` succeeds and returns the table itself. -/
theorem getCols_full_range_id_of_wellformed (t : Table)
    (hw : ∀ r ∈ t.rows, r.length = t.columns.length) :
    t.get_cols (List.range t.columns.length) = .ok t := by
  unfold Table.get_cols
  rw [selectFields_range_self t.columns, selectRows_range t.rows t.columns.length hw]

/-- Witness for the amended C3: the identity projection of a concrete
well-formed 2-column table. -/
theorem getCols_full_range_id_case :
    (Table.mk [['a'], ['b']] [[['1'], ['2']]] [',']).get_cols
        (List.range (Table.mk [['a'], ['b']] [[['1'], ['2']]] [',']).columns.length) =
      .ok (Table.mk [['a'], ['b']] [[['1'], ['2']]] [',']) :=
  getCols_full_range_id_of_wellformed _ (by decide)

/-- Claim C9: whenever `get_col` returns a table, that table's delimiter
is the default tab character — the input table's delimiter is not
inherited. -/
theorem getCol_delimiter_default (t : Table) (index : Nat) (res : Table)
    (h : t.get_col index = .ok res) : res.delimiter = ['\t'] := by
  unfold Table.get_col at h
  split at h
  · split at h
    · injection h with h'
      rw [← h']
    · exact absurd h (by simp)
  · exact absurd h (by simp)

/-- Witness for C9: single-column selection from a comma-delimited table
comes back tab-delimited. -/
theorem getCol_delimiter_default_case :
    (Table.mk [['a']] [[['x']]] [',']).get_col 0 =
        .ok (Table.mk [['a']] [[['x']]] ['\t']) ∧
      (Table.mk [['a']] [[['x']]] ['\t']).delimiter = ['\t'] :=
  ⟨by decide,
    getCol_delimiter_default (Table.mk [['a']] [[['x']]] [',']) 0
      (Table.mk [['a']] [[['x']]] ['\t']) (by decide)⟩

/-- Claim C10: the 1-based to 0-based field conversion of `main` has no
lower-bound check, so a field specification containing 0 produces the
wrapped unsigned 32-bit value 2 ^ 32 - 1 instead of a valid index or a
typed error. -/
theorem convertFields_zero_wraps (fields : List Nat) (h : 0 ∈ fields) :
    (2 ^ 32 - 1) ∈ convertFields fields ∧ u32SubOne 0 = 2 ^ 32 - 1 := by
  refine ⟨List.mem_map.mpr ⟨0, h, by decide⟩, by decide⟩

/-- Witness for C10: the field specification with user values 3 and 0. -/
theorem convertFields_zero_wraps_case :
    (2 ^ 32 - 1) ∈ convertFields [3, 0] ∧ u32SubOne 0 = 2 ^ 32 - 1 :=
  convertFields_zero_wraps [3, 0] (by decide)

/-! The renderer (claims C6 and C5). -/

theorem splitOn_nil (sep : Str) : splitOn sep [] = [[]] := rfl

/-- Stripping a carriage return from a line that has none is the
identity. -/
theorem stripCR_of_not_mem (l : Str) (h : '\r' ∉ l) : stripCR l = l := by
  unfold stripCR
  rw [if_neg]
  intro hl
  apply h
  obtain ⟨hn, he⟩ := List.mem_getLast?_eq_getLast (show '\r' ∈ l.getLast? from hl)
  rw [he]
  exact List.getLast_mem hn

/-- The line post-processing is the identity on chunk lists without
carriage returns whose final chunk is nonempty. -/
theorem rustLinesAux_eq_self :
    ∀ ls : List Str, (∀ l ∈ ls, '\r' ∉ l) → ls.getLast? ≠ some [] →
      rustLinesAux ls = ls := by
  intro ls
  induction ls with
  | nil =>
    intro _ _
    rfl
  | cons l ls ih =>
    intro hmem hlast
    cases ls with
    | nil =>
      have hl : l ≠ [] := fun h => hlast (by simp [h])
      simp [rustLinesAux, hl]
    | cons g gs =>
      show stripCR l :: rustLinesAux (g :: gs) = l :: g :: gs
      rw [stripCR_of_not_mem l (hmem l (by simp)),
        ih (fun x hx => hmem x (by simp [hx]))
          (by rwa [List.getLast?_cons_cons] at hlast)]

/-- Counterexample to claim C6 as stated: a zero-row table renders as its
header line followed by a trailing newline, not as the bare header line
the "one line per row, no trailing newline" description yields. -/
theorem render_zero_rows_trailing_newline :
    (Table.mk [['a']] [] ['\t']).render ≠
      List.intercalate ['\n'] ((Table.mk [['a']] [] ['\t']).headerLine ::
        (Table.mk [['a']] [] ['\t']).rowLines) := by
  decide

/-- Claim C6 (amended): for every table with at least one row, the
rendered output is exactly the header line followed by one line per row,
all joined by single newlines with no trailing newline; a zero-row table
instead renders as the header line followed by one newline. -/
theorem render_lines_of_rows_ne_nil (t : Table) (h : t.rows ≠ []) :
    t.render = List.intercalate ['\n'] (t.headerLine :: t.rowLines) := by
  have hrl : t.rowLines ≠ [] := by
    unfold Table.rowLines
    simpa using h
  cases hl : t.rowLines with
  | nil => exact absurd hl hrl
  | cons jr jrest =>
    unfold Table.render
    rw [hl]
    conv_rhs => rw [intercalate_cons₂_str]

/-- Witness for the amended C6: a two-row table renders as three
newline-joined lines. -/
theorem render_lines_of_rows_ne_nil_case :
    (Table.mk [['a'], ['b']] [[['1'], ['2']], [['3'], ['4']]] ['\t']).render =
      List.intercalate ['\n']
        ((Table.mk [['a'], ['b']] [[['1'], ['2']], [['3'], ['4']]] ['\t']).headerLine ::
          (Table.mk [['a'], ['b']] [[['1'], ['2']], [['3'], ['4']]] ['\t']).rowLines) :=
  render_lines_of_rows_ne_nil
    (Table.mk [['a'], ['b']] [[['1'], ['2']], [['3'], ['4']]] ['\t']) (by decide)

/-- Counterexample to claim C5 as stated: the table with the single
column name "ab", no rows, and delimiter "b" has no field equal to its
delimiter, yet parsing its rendering with that delimiter yields the
columns "a" and "" instead of "ab": forbidding only fields *equal* to
the delimiter is not enough for the round trip. -/
theorem parse_render_not_roundtrip :
    (∀ f ∈ (Table.mk [['a', 'b']] [] ['b']).columns,
        f ≠ (Table.mk [['a', 'b']] [] ['b']).delimiter) ∧
      (∀ r ∈ (Table.mk [['a', 'b']] [] ['b']).rows, ∀ f ∈ r,
        f ≠ (Table.mk [['a', 'b']] [] ['b']).delimiter) ∧
      parse_tsv (Table.mk [['a', 'b']] [] ['b']).render
          (Table.mk [['a', 'b']] [] ['b']).delimiter ≠
        .ok (Table.mk [['a', 'b']] [] ['b']) := by
  decide

/-- Claim C5 (amended): for every table whose delimiter is a single
character other than newline and carriage return, whose column list is
nonempty, whose fields (column names and row values) contain neither the
delimiter character nor a newline nor a carriage return, whose rows are
all nonempty field lists, and whose last row is not the single empty
field, parsing the rendered text with the table's delimiter reproduces
the table exactly. -/
theorem parse_render_roundtrip (t : Table) (d : Char)
    (hdelim : t.delimiter = [d]) (hdn : d ≠ '\n') (hdr : d ≠ '\r')
    (hcols : t.columns ≠ [])
    (hcf : ∀ f ∈ t.columns, d ∉ f ∧ '\n' ∉ f ∧ '\r' ∉ f)
    (hrf : ∀ r ∈ t.rows, r ≠ [] ∧ ∀ f ∈ r, d ∉ f ∧ '\n' ∉ f ∧ '\r' ∉ f)
    (hlast : t.rows.getLast? ≠ some [[]]) :
    parse_tsv t.render t.delimiter = .ok t := by
  have hHn : '\n' ∉ t.headerLine := by
    unfold Table.headerLine renderLine
    rw [hdelim]
    exact not_mem_intercalate '\n' d (Ne.symm hdn) t.columns (fun f hf => (hcf f hf).2.1)
  have hHr : '\r' ∉ t.headerLine := by
    unfold Table.headerLine renderLine
    rw [hdelim]
    exact not_mem_intercalate '\r' d (Ne.symm hdr) t.columns (fun f hf => (hcf f hf).2.2)
  have hRn : ∀ l ∈ t.rowLines, '\n' ∉ l := by
    intro l hl
    unfold Table.rowLines at hl
    obtain ⟨r, hr, rfl⟩ := List.mem_map.mp hl
    unfold renderLine
    rw [hdelim]
    exact not_mem_intercalate '\n' d (Ne.symm hdn) r (fun f hf => ((hrf r hr).2 f hf).2.1)
  have hRr : ∀ l ∈ t.rowLines, '\r' ∉ l := by
    intro l hl
    unfold Table.rowLines at hl
    obtain ⟨r, hr, rfl⟩ := List.mem_map.mp hl
    unfold renderLine
    rw [hdelim]
    exact not_mem_intercalate '\r' d (Ne.symm hdr) r (fun f hf => ((hrf r hr).2 f hf).2.2)
  have hsplitH : splitOn [d] t.headerLine = t.columns := by
    unfold Table.headerLine renderLine
    rw [hdelim]
    exact splitOn_intercalate d t.columns hcols (fun f hf => (hcf f hf).1)
  have hsplitR : t.rowLines.map (splitOn [d]) = t.rows := by
    unfold Table.rowLines
    rw [List.map_map]
    have hid : ∀ r ∈ t.rows, (splitOn [d] ∘ renderLine t.delimiter) r = id r := by
      intro r hr
      show splitOn [d] (renderLine t.delimiter r) = r
      unfold renderLine
      rw [hdelim]
      exact splitOn_intercalate d r (hrf r hr).1 (fun f hf => ((hrf r hr).2 f hf).1)
    rw [List.map_congr_left hid, List.map_id]
  have hlines : rustLines t.render = t.headerLine :: t.rowLines := by
    unfold rustLines Table.render
    cases hrows : t.rows with
    | nil =>
      have hrl : t.rowLines = [] := by
        unfold Table.rowLines
        rw [hrows]
        rfl
      rw [hrl, intercalate_nil_str, List.append_nil,
        show t.headerLine ++ ['\n'] = t.headerLine ++ '\n' :: ([] : Str) from rfl,
        splitOn_append_sep '\n' t.headerLine [] hHn, splitOn_nil]
      show stripCR t.headerLine :: rustLinesAux [[]] = [t.headerLine]
      rw [stripCR_of_not_mem _ hHr]
      rfl
    | cons r rest =>
      have hrl : t.rowLines = renderLine t.delimiter r :: rest.map (renderLine t.delimiter) := by
        unfold Table.rowLines
        rw [hrows]
        rfl
      have hrlne : t.rowLines ≠ [] := by
        rw [hrl]
        simp
      have hb : splitOn ['\n'] (List.intercalate ['\n'] t.rowLines) = t.rowLines :=
        splitOn_intercalate '\n' t.rowLines hrlne hRn
      rw [show t.headerLine ++ ['\n'] ++ List.intercalate ['\n'] t.rowLines =
            t.headerLine ++ '\n' :: List.intercalate ['\n'] t.rowLines by
          rw [List.append_assoc]
          rfl,
        splitOn_append_sep '\n' t.headerLine _ hHn, hb]
      apply rustLinesAux_eq_self
      · intro l hl
        rcases List.mem_cons.mp hl with rfl | hmem
        · exact hHr
        · exact hRr l hmem
      · have hLne : (r :: rest) ≠ [] := by simp
        have hLmem : (r :: rest).getLast hLne ∈ t.rows := by
          rw [hrows]
          exact List.getLast_mem hLne
        have hL1 : (r :: rest).getLast hLne ≠ [] := (hrf _ hLmem).1
        have hL2 : (r :: rest).getLast hLne ≠ [[]] := by
          intro hbad
          apply hlast
          rw [hrows, List.getLast?_eq_getLast_of_ne_nil hLne, hbad]
        have hfL : renderLine t.delimiter ((r :: rest).getLast hLne) ≠ [] := by
          unfold renderLine
          rw [hdelim]
          exact intercalate_ne_nil [d] (by simp) _ hL1 hL2
        rw [hrl, List.getLast?_cons_cons, ← List.map_cons, List.getLast?_map,
          List.getLast?_eq_getLast_of_ne_nil hLne]
        simp [hfL]
  rw [hdelim]
  rw [parse_tsv_of_rustLines_cons t.render [d] t.headerLine t.rowLines hlines,
    hsplitH, hsplitR, ← hdelim]

/-- Witness for the amended C5: a concrete comma-delimited table whose
fields avoid the delimiter round-trips exactly. -/
theorem parse_render_roundtrip_case :
    parse_tsv (Table.mk [['a'], ['b']] [[['1'], ['2']]] [',']).render
        (Table.mk [['a'], ['b']] [[['1'], ['2']]] [',']).delimiter =
      .ok (Table.mk [['a'], ['b']] [[['1'], ['2']]] [',']) :=
  parse_render_roundtrip (Table.mk [['a'], ['b']] [[['1'], ['2']]] [',']) ','
    rfl (by decide) (by decide) (by decide) (by decide) (by decide) (by decide)
